import Mathlib

/-!
Verification of the PMFS/NOVA core (dir.c, inode.c, pmfs.h): a shallow
embedding of the directory log and in-DRAM index, the inode-log page
management and garbage collection, the block-map height check, the
inode-table allocator and the truncate list, with theorems settling the
frozen claims about them.

Modelling conventions:
- machine integers are Nat/Int with explicit wrap (% 2^16, % 2^64) where
  the C code can overflow;
- the red-black tree of the directory index is modelled by its contents
  (a list of nodes); the comparator pmfs_rbtree_compare_find_by_name
  orders by hash alone and returns 0 on hash equality (the name check in
  the source is debug logging only), so the tree behaves as a map keyed
  by hash;
- the byte-level page walk of the logs is modelled by iterating entries
  in append order with abstract entry positions, except where a claim is
  about the page chain itself, where pages and next_page pointers are
  explicit;
- fallible C paths return Except Int with the source's negative errno.
-/

/-! ## Error codes (linux errno, returned negated as in the source) -/

def ENOMEM : Int := 12
def EEXIST : Int := 17
def EINVAL : Int := 22
def ENOSPC : Int := 28

/-! ## Layout constants from pmfs.h -/

def PAGE_SHIFT : Nat := 12
def PAGE_SIZE : Nat := 4096
def INVALID_MASK : Nat := 4095
def LAST_ENTRY : Nat := 4064
def ENTRIES_PER_PAGE : Nat := 127
def CACHELINE_SIZE : Nat := 64
def PMFS_INODE_SIZE : Nat := 128

/-- ENTRY_LOC(p) = p & INVALID_MASK: offset of a log position inside its page. -/
def ENTRY_LOC (p : Nat) : Nat := p % 4096

/-- BLOCK_OFF(p) = p & ~INVALID_MASK: base offset of the page containing p. -/
def BLOCK_OFF (p : Nat) : Nat := p - p % 4096

/-- PMFS_DIR_LOG_REC_LEN(name_len) = (name_len + 28 + 3) & ~3. -/
def PMFS_DIR_LOG_REC_LEN (name_len : Nat) : Nat := (name_len + 28 + 3) / 4 * 4

/-- Modelled from the spec (the defining header is not under src/): an interior
btree node is a 4 KiB block of 8-byte slots, so the per-level index width
META_BLK_SHIFT is 9 and the fanout is 512. -/
def META_BLK_SHIFT : Nat := 9

/-- Modelled from the spec (the defining macro is not under src/): GET_INVALID
reads the invalidation counter kept in the low INVALID_MASK bits of a
FILE_WRITE entry's block field. -/
def GET_INVALID (block : Nat) : Nat := block % 4096

/-- Truncation of a u64 store (the log offsets are u64 in the source). -/
def U64 (n : Nat) : Nat := n % (2 ^ 64)

/-- BKDRHash from pmfs.h: hash = hash * 131 + c over the bytes of the name
(u32 arithmetic), masked to the low 31 bits — the source's final
hash & 0x7FFFFFFF is the reduction mod 2^31. -/
def BKDRHash (name : List Nat) : Nat :=
  (name.foldl (fun h c => (h * 131 + c) % (2 ^ 32)) 0) % (2 ^ 31)

/-! ## Directory in-DRAM index (dir.c, rb-tree contents) -/

/-- A node of the directory index (struct pmfs_dir_node): the persistent
offset of the backing DIR_LOG entry, the target inode number and the
name hash. -/
structure PmfsDirNode where
  nvmm : Nat
  ino : Nat
  hash : Nat
deriving Repr, DecidableEq

/-- The in-DRAM directory index: contents of sih->dir_tree. The rb-tree is
keyed by hash (the comparator returns 0 on hash equality), so it is a
hash-keyed map; we keep its nodes as a list in insertion order. -/
abbrev DirTree := List PmfsDirNode

/-- pmfs_insert_dir_node_by_name (dir.c): walk the tree by the comparator;
if a node with the same hash exists, fail with -EINVAL; otherwise link a
new node carrying (dir_entry, ino, hash). -/
def pmfs_insert_dir_node_by_name (t : DirTree) (ino : Nat) (name : List Nat)
    (dir_entry : Nat) : Except Int DirTree :=
  let hash := BKDRHash name
  if t.any (fun n => n.hash == hash) then .error (-EINVAL)
  else .ok (t ++ [⟨dir_entry, ino, hash⟩])

/-- pmfs_remove_dir_node_by_name (dir.c): erase the node whose hash matches
the name's hash (the loop breaks after the first match). -/
def pmfs_remove_dir_node_by_name (t : DirTree) (name : List Nat) : DirTree :=
  let hash := BKDRHash name
  t.eraseP (fun n => n.hash == hash)

/-! ## Directory log entries and the online operations (dir.c) -/

/-- The fields of struct pmfs_dir_logentry that the directory index claims
depend on; the entry position in the log stands for its persistent offset. -/
structure PmfsDirLogentry where
  ino : Nat
  name : List Nat
deriving Repr, DecidableEq

/-- A directory's state: its append-only log (in append order) and the
in-DRAM index maintained online. -/
structure PmfsDirState where
  log : List PmfsDirLogentry
  tree : DirTree
deriving Repr, DecidableEq

/-- pmfs_add_entry (dir.c): reject an empty name with -EINVAL; otherwise
append a DIR_LOG entry carrying (ino, name) and insert the name into the
index pointing at the appended entry. The result of the insert is
discarded by the source, so a failed insert leaves the tree unchanged
and the function still returns success. -/
def pmfs_add_entry (s : PmfsDirState) (ino : Nat) (name : List Nat) :
    Except Int PmfsDirState :=
  if name.length = 0 then .error (-EINVAL)
  else
    let curr_entry := s.log.length
    let log := s.log ++ [⟨ino, name⟩]
    let tree :=
      match pmfs_insert_dir_node_by_name s.tree ino name curr_entry with
      | .ok t => t
      | .error _ => s.tree
    .ok ⟨log, tree⟩

/-- pmfs_remove_entry (dir.c): reject an empty name with -EINVAL; otherwise
append a DIR_LOG entry with ino = 0 and remove the name from the index. -/
def pmfs_remove_entry (s : PmfsDirState) (name : List Nat) :
    Except Int PmfsDirState :=
  if name.length = 0 then .error (-EINVAL)
  else .ok ⟨s.log ++ [⟨0, name⟩], pmfs_remove_dir_node_by_name s.tree name⟩

/-! ## Rebuild of the directory index from the log (dir.c) -/

/-- pmfs_replay_add_entry (dir.c): refuse a zero-length name with -EINVAL,
otherwise insert (ino, name) at the entry's position. -/
def pmfs_replay_add_entry (t : DirTree) (e : PmfsDirLogentry) (curr_p : Nat) :
    Except Int DirTree :=
  if e.name.length = 0 then .error (-EINVAL)
  else pmfs_insert_dir_node_by_name t e.ino e.name curr_p

/-- pmfs_replay_remove_entry (dir.c): remove the entry's name from the index
(always succeeds). -/
def pmfs_replay_remove_entry (t : DirTree) (e : PmfsDirLogentry) : DirTree :=
  pmfs_remove_dir_node_by_name t e.name

/-- The entry loop of pmfs_rebuild_dir_inode_tree (dir.c): walk the DIR_LOG
entries from log_head to log_tail in order; an entry with ino > 0 is
inserted, one with ino == 0 is removed; on the first failing insert the
loop breaks, keeping the index built so far. The byte-level page walk is
modelled by iterating the entries in append order. -/
def rebuildGo (t : DirTree) (pos : Nat) : List PmfsDirLogentry → DirTree
  | [] => t
  | e :: rest =>
    if e.ino > 0 then
      match pmfs_replay_add_entry t e pos with
      | .ok t2 => rebuildGo t2 (pos + 1) rest
      | .error _ => t
    else rebuildGo (pmfs_replay_remove_entry t e) (pos + 1) rest

/-- Whether the rebuild loop runs the whole log without an error break. -/
def rebuildOkB (t : DirTree) (pos : Nat) : List PmfsDirLogentry → Bool
  | [] => true
  | e :: rest =>
    if e.ino > 0 then
      match pmfs_replay_add_entry t e pos with
      | .ok t2 => rebuildOkB t2 (pos + 1) rest
      | .error _ => false
    else rebuildOkB (pmfs_replay_remove_entry t e) (pos + 1) rest

/-- pmfs_rebuild_dir_inode_tree (dir.c): sih->dir_tree = RB_ROOT, then replay
the whole log. -/
def pmfs_rebuild_dir_inode_tree (log : List PmfsDirLogentry) : DirTree :=
  rebuildGo [] 0 log

/-! ## Fresh directory initialization (dir.c, pmfs_append_dir_init_entries) -/

def dotName : List Nat := [46]
def dotdotName : List Nat := [46, 46]

/-- The log of a freshly initialized directory: the two DIR_LOG entries for
"." (self) and ".." (parent), and an empty in-DRAM index —
pmfs_append_dir_init_entries writes the log only and never touches
sih->dir_tree. -/
def initDirState (self_ino parent_ino : Nat) : PmfsDirState :=
  ⟨[⟨self_ino, dotName⟩, ⟨parent_ino, dotdotName⟩], []⟩

/-- The index nodes that replaying the two init entries produces. -/
def initDirNodes (self_ino parent_ino : Nat) : DirTree :=
  [⟨0, self_ino, BKDRHash dotName⟩, ⟨1, parent_ino, BKDRHash dotdotName⟩]

/-! ## Operation sequences over a directory -/

/-- An online directory mutation: pmfs_add_entry or pmfs_remove_entry. -/
inductive DirOp where
  | add (ino : Nat) (name : List Nat)
  | remove (name : List Nat)
deriving Repr, DecidableEq

/-- Apply one operation, keeping the state on an error return (the failing
call does not mutate anything in the model). -/
def applyOp (s : PmfsDirState) : DirOp → PmfsDirState
  | .add ino name =>
    match pmfs_add_entry s ino name with
    | .ok s2 => s2
    | .error _ => s
  | .remove name =>
    match pmfs_remove_entry s name with
    | .ok s2 => s2
    | .error _ => s

/-- A fully successful operation at a state: for an add, the name is
nonempty, the inode number is nonzero, and the insert into the index
succeeds (its hash is fresh); for a remove, the name is nonempty.
Operations on the reserved init names "." and ".." (or hash-colliding
with them) are excluded: the index never holds them online. -/
def opOk (s : PmfsDirState) : DirOp → Bool
  | .add ino name =>
    decide (0 < ino) && !(name.length == 0)
      && !(s.tree.any (fun n => n.hash == BKDRHash name))
      && !(BKDRHash name == BKDRHash dotName)
      && !(BKDRHash name == BKDRHash dotdotName)
  | .remove name =>
    !(name.length == 0)
      && !(BKDRHash name == BKDRHash dotName)
      && !(BKDRHash name == BKDRHash dotdotName)

/-- All operations of the sequence are successful, each at the state the
previous ones produced. -/
def opsOkB : PmfsDirState → List DirOp → Bool
  | _, [] => true
  | s, op :: rest => opOk s op && opsOkB (applyOp s op) rest

/-- Run a sequence of operations online. -/
def runOps : PmfsDirState → List DirOp → PmfsDirState
  | s, [] => s
  | s, op :: rest => runOps (applyOp s op) rest

/-! ## DIR_LOG links_count field (dir.c, pmfs_append_dir_inode_entry) -/

/-- The links_count recorded in a DIR_LOG entry by
pmfs_append_dir_inode_entry: links_count = (u16)dir->i_nlink; if it is 0
and link_change == -1 the result stays 0, otherwise link_change is added
with u16 wraparound. -/
def pmfs_dir_entry_links_count (i_nlink : Nat) (link_change : Int) : Nat :=
  let links_count := i_nlink % 65536
  if links_count = 0 ∧ link_change = -1 then 0
  else (((links_count : Int) + link_change).emod 65536).toNat

/-! ## Directory log initialization (dir.c, pmfs_append_dir_init_entries) -/

/-- The log fields of a directory's persistent inode that
pmfs_append_dir_init_entries touches. -/
structure DirInodeLog where
  log_head : Nat
  log_tail : Nat
  log_pages : Nat
  i_blocks : Nat
deriving Repr, DecidableEq

/-- A DIR_LOG record as written by pmfs_append_dir_init_entries. -/
structure InitDirEntry where
  entry_type : Nat
  ino : Nat
  name : List Nat
  de_len : Nat
  links_count : Nat
deriving Repr, DecidableEq

/-- Value of the DIR_LOG enum tag (pmfs.h: FILE_WRITE = 1, DIR_LOG, ...). -/
def DIR_LOG_TYPE : Nat := 2

/-- pmfs_append_dir_init_entries (dir.c): if log_head is nonzero, fail with
-EINVAL touching nothing; otherwise (with an allocation oracle for the
one log page) set log_head = log_tail = new_block, i_blocks = 1, write
the "." and ".." entries at new_block and new_block + rec_len("."), and
publish the tail after both. The returned list holds (position, entry)
pairs of the writes. -/
def pmfs_append_dir_init_entries (pi : DirInodeLog) (allocated : Bool)
    (new_block : Nat) (self_ino parent_ino : Nat) :
    Except Int Unit × DirInodeLog × List (Nat × InitDirEntry) :=
  if pi.log_head ≠ 0 then (.error (-EINVAL), pi, [])
  else if !allocated then (.error (-ENOMEM), pi, [])
  else
    let e1 : InitDirEntry :=
      ⟨DIR_LOG_TYPE, self_ino, dotName, PMFS_DIR_LOG_REC_LEN 1, 1⟩
    let e2 : InitDirEntry :=
      ⟨DIR_LOG_TYPE, parent_ino, dotdotName, PMFS_DIR_LOG_REC_LEN 2, 2⟩
    let curr_p := new_block + PMFS_DIR_LOG_REC_LEN 1 + PMFS_DIR_LOG_REC_LEN 2
    (.ok (),
     { log_head := new_block, log_tail := curr_p, log_pages := pi.log_pages,
       i_blocks := 1 },
     [(new_block, e1), (new_block + PMFS_DIR_LOG_REC_LEN 1, e2)])

/-! ## Block-map height growth check (inode.c, __pmfs_alloc_blocks and
__pmfs_assign_blocks share this prefix verbatim) -/

/-- The while loop computing the required height: while total_blocks > 0,
shift right by META_BLK_SHIFT and increment height. -/
def pmfs_height_loop (total height : Nat) : Nat :=
  if total = 0 then height
  else pmfs_height_loop (total >>> META_BLK_SHIFT) (height + 1)
termination_by total
decreasing_by
  simp only [Nat.shiftRight_eq_div_pow, META_BLK_SHIFT]
  exact Nat.div_lt_self (Nat.pos_of_ne_zero (by assumption)) (by norm_num)

/-- The root/height pair of a persistent inode's block map. -/
structure BtreeInode where
  root : Nat
  height : Nat
deriving Repr, DecidableEq

/-- The height-growth check at the top of __pmfs_alloc_blocks /
__pmfs_assign_blocks (inode.c): if last_blocknr exceeds what the current
height covers, recompute the height; refuse with -ENOSPC if it exceeds 3. -/
def pmfs_grow_height_check (pi : BtreeInode) (last_blocknr : Nat) :
    Except Int Nat :=
  let blk_shift := pi.height * META_BLK_SHIFT
  let max_blocks := 1 <<< blk_shift
  if last_blocknr > max_blocks - 1 then
    let height := pmfs_height_loop (last_blocknr >>> blk_shift) pi.height
    if height > 3 then .error (-ENOSPC) else .ok height
  else .ok pi.height

/-- __pmfs_alloc_blocks (inode.c): convert the requested 4K range into the
inode's block units, run the height check, and on -ENOSPC return with the
inode untouched; the remainder of the function (allocation proper) is the
continuation rest, which receives the checked height. -/
def pmfs_alloc_blocks_top (pi : BtreeInode) (file_blocknr num blk_shift : Nat)
    (rest : BtreeInode → Nat → Nat → Nat → Except Int Unit × BtreeInode) :
    Except Int Unit × BtreeInode :=
  let first_blocknr := file_blocknr >>> blk_shift
  let last_blocknr := (file_blocknr + num - 1) >>> blk_shift
  match pmfs_grow_height_check pi last_blocknr with
  | .error e => (.error e, pi)
  | .ok height => rest pi first_blocknr last_blocknr height

/-- __pmfs_assign_blocks (inode.c): identical prefix to __pmfs_alloc_blocks
(the source duplicates the height-check code), with its own continuation. -/
def pmfs_assign_blocks_top (pi : BtreeInode) (file_blocknr num blk_shift : Nat)
    (rest : BtreeInode → Nat → Nat → Nat → Except Int Unit × BtreeInode) :
    Except Int Unit × BtreeInode :=
  let first_blocknr := file_blocknr >>> blk_shift
  let last_blocknr := (file_blocknr + num - 1) >>> blk_shift
  match pmfs_grow_height_check pi last_blocknr with
  | .error e => (.error e, pi)
  | .ok height => rest pi first_blocknr last_blocknr height

/-! ## Inode table allocator (inode.c, pmfs_new_inode and
pmfs_increase_inode_table_size) -/

/-- The fields of an inode-table slot that the free test reads. -/
structure PmfsInodeSlot where
  i_links_count : Nat
  i_mode : Nat
  i_dtime : Nat
deriving Repr, DecidableEq

/-- The free test of pmfs_new_inode:
links_count == 0 && (mode == 0 || dtime != 0). -/
def slot_free (s : PmfsInodeSlot) : Bool :=
  s.i_links_count == 0 && (s.i_mode == 0 || s.i_dtime != 0)

/-- The inode-table state: the slot array backing the inode-table file
(s_inodes_count = slots.length), the free-count and the allocation hint. -/
structure InodeTable where
  slots : List PmfsInodeSlot
  free_inodes_count : Nat
  free_inode_hint : Nat
deriving Repr, DecidableEq

/-- Helper for the scan loop: walk the slots from index i upward, returning
the index of the first free one. -/
def scanAux : List PmfsInodeSlot → Nat → Option Nat
  | [], _ => none
  | s :: rest, i => if slot_free s then some i else scanAux rest (i + 1)

/-- The scan loop of pmfs_new_inode flattened: starting at i, find the first
slot satisfying slot_free before s_inodes_count. (The source walks the
table one inode block at a time; since s_inodes_count is a whole number
of blocks the chunked walk visits exactly the indices i, i+1, ....) -/
def scan_free_inode (slots : List PmfsInodeSlot) (i : Nat) : Option Nat :=
  scanAux (slots.drop i) i

/-- pmfs_increase_inode_table_size (inode.c): extend the inode-table file by
one block via __pmfs_alloc_blocks (zero-filled, so the new slots are all
zero), point the hint at the first new slot, and update
s_free_inodes_count and s_inodes_count by one block's worth of inodes. -/
def pmfs_increase_inode_table_size (t : InodeTable) (inodes_per_block : Nat) :
    InodeTable :=
  { slots := t.slots ++ List.replicate inodes_per_block ⟨0, 0, 0⟩,
    free_inodes_count := t.free_inodes_count + inodes_per_block,
    free_inode_hint := t.slots.length }

/-- The retry loop of pmfs_new_inode (inode.c): scan from i; if no free slot
is found before s_inodes_count, grow the table (when the allocator
cooperates) and retry from the point the scan stopped at. The result
carries the chosen slot index, the table state, and how many times the
table was extended. The fuel bounds the retries (two suffice: a fresh
block always has a free slot); the allocation-failure errno of the
source (propagated from the transaction or allocator) is represented by
-ENOSPC. -/
def pmfs_new_inode_loop (t : InodeTable) (i inodes_per_block : Nat)
    (allocOk : Bool) : Nat → Except Int (Nat × InodeTable × Nat)
  | 0 => .error (-ENOSPC)
  | fuel + 1 =>
    match scan_free_inode t.slots i with
    | some j => .ok (j, t, 0)
    | none =>
      if allocOk then
        match pmfs_new_inode_loop (pmfs_increase_inode_table_size t inodes_per_block)
            (max i t.slots.length) inodes_per_block allocOk fuel with
        | .ok (j, t2, grown) => .ok (j, t2, grown + 1)
        | .error e => .error e
      else .error (-ENOSPC)

/-- The slot-search core of pmfs_new_inode: scan from the free-inode hint. -/
def pmfs_new_inode_scan (t : InodeTable) (inodes_per_block : Nat)
    (allocOk : Bool) (fuel : Nat) : Except Int (Nat × InodeTable × Nat) :=
  pmfs_new_inode_loop t t.free_inode_hint inodes_per_block allocOk fuel

/-! ## Inode log pages and garbage collection (inode.c) -/

/-- A FILE_WRITE log entry as the garbage collector reads it: the block field
(low bits = invalidation counter) and num_pages. -/
structure PmfsFileWriteEntry where
  block : Nat
  num_pages : Nat
deriving Repr, DecidableEq

/-- curr_page_invalid (inode.c): a page is invalid iff every entry on it has
num_pages == GET_INVALID(block). -/
def curr_page_invalid (entries : List PmfsFileWriteEntry) : Bool :=
  entries.all (fun e => e.num_pages == GET_INVALID e.block)

/-- A log page as the garbage collector sees it: its base offset and its
ENTRIES_PER_PAGE file-write entries. -/
structure LogPage where
  off : Nat
  entries : List PmfsFileWriteEntry
deriving Repr, DecidableEq

/-- The log fields of a persistent inode. -/
structure LogInode where
  log_head : Nat
  log_tail : Nat
  log_pages : Nat
deriving Repr, DecidableEq

/-- Accumulator of the garbage-collection walk. -/
structure GCAcc where
  possible_head : Nat
  found_head : Bool
  last_page : Option Nat
  first_need_free : Bool
  freed : List Nat
  rewires : List (Nat × Nat)
deriving Repr, DecidableEq

def gcAccInit : GCAcc := ⟨0, false, none, false, [], []⟩

/-- The walk of pmfs_inode_log_garbage_collection (inode.c), over the chain
of pages reachable from log_head (next_page of each page is the next
list element's offset, 0 after the last). The loop head compares
curr << PAGE_SHIFT with log_tail << PAGE_SHIFT in u64 arithmetic — the
source shifts left, exactly as written. An invalid page that is not the
head page is unlinked (the last kept page's next_page is rewired to its
successor) and freed; the head page is only marked to be freed after the
new head is published. -/
def gcLoop (log_head log_tail : Nat) : List LogPage → GCAcc → GCAcc
  | [], acc => acc
  | pg :: rest, acc =>
    if U64 (pg.off <<< PAGE_SHIFT) == U64 (log_tail <<< PAGE_SHIFT) then
      if acc.found_head then acc else { acc with possible_head := pg.off }
    else
      let next := match rest with
        | [] => 0
        | q :: _ => q.off
      if curr_page_invalid pg.entries then
        if pg.off == log_head then
          gcLoop log_head log_tail rest
            { acc with first_need_free := true, last_page := some pg.off }
        else
          gcLoop log_head log_tail rest
            { acc with
                rewires := acc.rewires ++ [(acc.last_page.getD 0, next)],
                freed := acc.freed ++ [pg.off] }
      else
        if acc.found_head then
          gcLoop log_head log_tail rest { acc with last_page := some pg.off }
        else
          gcLoop log_head log_tail rest
            { acc with possible_head := pg.off, found_head := true,
                       last_page := some pg.off }

/-- Result of a garbage-collection pass: the pages returned to the allocator
(in free order), the next_page pointer writes (keyed by the page the
write lands in), and the published log fields. -/
structure GCResult where
  freed : List Nat
  rewires : List (Nat × Nat)
  pi : LogInode
deriving Repr, DecidableEq

/-- pmfs_inode_log_garbage_collection (inode.c): walk the chain from
log_head; then link the tail page to the freshly allocated chain
(log_tail points at the page-tail struct when GC runs), publish
log_head = possible_head, log_tail = new_block,
log_pages += num_pages, and finally free the old head page if it was
invalid. -/
def pmfs_inode_log_garbage_collection (pi : LogInode) (chain : List LogPage)
    (new_block num_pages : Nat) : GCResult :=
  let acc := gcLoop pi.log_head pi.log_tail chain gcAccInit
  let rewires := acc.rewires ++ [(BLOCK_OFF pi.log_tail, new_block)]
  let freed :=
    if acc.first_need_free then acc.freed ++ [pi.log_head] else acc.freed
  { freed := freed,
    rewires := rewires,
    pi := { log_head := acc.possible_head, log_tail := new_block,
            log_pages := pi.log_pages + num_pages } }

/-- The next_page pointer writes of pmfs_allocate_inode_log_pages (inode.c):
the batch occupies consecutive 4K blocks from base; pages 0 .. n-2 are
linked each to its successor; the last page's tail is left as allocated
(the batch is zero-filled, so its next_page is 0). -/
def pmfs_allocate_inode_log_pages_writes (num_pages base : Nat) :
    List (Nat × Nat) :=
  (List.range (num_pages - 1)).map
    (fun i => (base + PAGE_SIZE * i, base + PAGE_SIZE * (i + 1)))

/-- Events of an append to the inode log, in program order. The publish
event is the store group at the end of garbage collection that makes the
new head, tail and page count visible. -/
inductive LogEv where
  | allocPages (num base : Nat)
  | gcRun
  | publish (head tail : Nat)
  | writeEntry (pos : Nat)
deriving Repr, DecidableEq

/-- Result of pmfs_append_inode_entry: the event trace, the inode's log
fields after the call, and the position the entry was written at. -/
structure AppendResult where
  events : List LogEv
  pi : LogInode
  curr_p : Nat
deriving Repr, DecidableEq

/-- pmfs_append_inode_entry (inode.c), page management only: starting from
curr_p = log_tail, an empty log allocates its first page; a full tail
page with no next page allocates a batch of
(log_pages >= 256 ? 256 : log_pages) pages and runs garbage collection
(which publishes the new chain); otherwise the entry goes at curr_p,
moving to the next page when curr_p sits at LAST_ENTRY. next_of_tail is
the next_page field of the page holding log_tail; fresh_base the offset
the allocator returns. -/
def pmfs_append_inode_entry (pi : LogInode) (chain : List LogPage)
    (next_of_tail fresh_base : Nat) : AppendResult :=
  let curr_p := pi.log_tail
  if curr_p == 0 then
    { events := [.allocPages 1 fresh_base, .writeEntry fresh_base],
      pi := { pi with log_head := fresh_base, log_pages := 1 },
      curr_p := fresh_base }
  else if ENTRY_LOC curr_p == LAST_ENTRY && next_of_tail == 0 then
    let num_pages := if pi.log_pages ≥ 256 then 256 else pi.log_pages
    let gc := pmfs_inode_log_garbage_collection pi chain fresh_base num_pages
    { events := [.allocPages num_pages fresh_base, .gcRun,
                 .publish gc.pi.log_head gc.pi.log_tail,
                 .writeEntry fresh_base],
      pi := gc.pi,
      curr_p := fresh_base }
  else
    let cp := if ENTRY_LOC curr_p == LAST_ENTRY then next_of_tail else curr_p
    { events := [.writeEntry cp], pi := pi, curr_p := cp }

/-! ## Truncate list (inode.c, pmfs_truncate_add) -/

/-- The persistent-memory primitives pmfs_truncate_add issues, in program
order. -/
inductive TruncateEv where
  | writeItem (next size : Nat)
  | flushItem
  | persistMark
  | persistBarrier
  | writeHeadNext (ino : Nat)
  | flushHeadNext
deriving Repr, DecidableEq

/-- pmfs_truncate_add (inode.c): under the truncate mutex, if the inode is
already on the list nothing is written; otherwise the per-inode truncate
item is written with next = head.next and size = truncate_size, flushed,
and made persistent with a mark and barrier, and only then is the
inode's number stored into head.next and flushed (with a further
mark/barrier when no transaction will supply one). -/
def pmfs_truncate_add (already_on_list : Bool) (head_next ino truncate_size : Nat)
    (in_transaction : Bool) : List TruncateEv :=
  if already_on_list then []
  else
    [.writeItem head_next truncate_size, .flushItem, .persistMark,
     .persistBarrier, .writeHeadNext ino, .flushHeadNext]
    ++ (if in_transaction then [] else [.persistMark, .persistBarrier])

/-! ## Helper lemmas -/

theorem eraseP_append_false {α : Type} (p : α → Bool) (l1 l2 : List α)
    (h : ∀ a ∈ l1, p a = false) :
    (l1 ++ l2).eraseP p = l1 ++ l2.eraseP p := by
  induction l1 with
  | nil => simp
  | cons a rest ih =>
    have ha : p a = false := h a (by simp)
    simp only [List.cons_append, List.eraseP_cons, ha, cond_false]
    rw [ih (fun b hb => h b (by simp [hb]))]

theorem BKDR_dot_ne_dotdot : BKDRHash dotName ≠ BKDRHash dotdotName := by decide

/-! ## C5: duplicate insert into the directory index -/

/-- C5 counterexample: inserting a name whose hash is already present in the
index returns -EINVAL, not -EEXIST as the claim states. -/
theorem c5_insert_duplicate_returns_einval_not_eexist :
    pmfs_insert_dir_node_by_name [⟨0, 5, 97⟩] 6 [97] 1 = .error (-EINVAL)
    ∧ (-EINVAL : Int) ≠ -EEXIST := ⟨rfl, by decide⟩

/-- C5 (amended): inserting into the in-DRAM directory index a name whose
hash is already present fails with error EINVAL (the comparator matches on
hash alone; the name comparison in the source is debug logging), and no
tree node is created. -/
theorem c5_insert_duplicate_einval (t : DirTree) (ino : Nat) (name : List Nat)
    (nvmm : Nat) (h : t.any (fun n => n.hash == BKDRHash name) = true) :
    pmfs_insert_dir_node_by_name t ino name nvmm = .error (-EINVAL) := by
  simp only [pmfs_insert_dir_node_by_name, h, if_true]

/-- C5 witness. -/
theorem c5_insert_duplicate_einval_witness :
    pmfs_insert_dir_node_by_name [⟨3, 8, 97⟩] 9 [97] 2 = .error (-EINVAL) :=
  c5_insert_duplicate_einval [⟨3, 8, 97⟩] 9 [97] 2 (by decide)

/-! ## C3: no compensating entry after a failed index insert -/

/-- C3 counterexample: with the name already in the index (so the insert
fails), pmfs_add_entry still appends only the ino > 0 entry, leaves the
index unchanged and returns success; the log after the call holds no
ino = 0 entry at all, so no compensating DIR_LOG entry is ever appended. -/
theorem c3_no_compensating_entry :
    pmfs_insert_dir_node_by_name [⟨0, 5, 97⟩] 6 [97] 1 = .error (-EINVAL)
    ∧ pmfs_add_entry ⟨[⟨5, [97]⟩], [⟨0, 5, 97⟩]⟩ 6 [97]
        = .ok ⟨[⟨5, [97]⟩, ⟨6, [97]⟩], [⟨0, 5, 97⟩]⟩
    ∧ ([⟨5, [97]⟩, ⟨6, [97]⟩] : List PmfsDirLogentry).filter
        (fun e => e.ino == 0) = [] :=
  ⟨rfl, rfl, by decide⟩

/-- C3 (amended): when the insert of the appended entry's name into the
directory index fails, pmfs_add_entry ignores the failure: the DIR_LOG
entry with its nonzero ino stays appended, no compensating ino = 0 entry
is logged, the index is unchanged, and the call still reports success. -/
theorem c3_add_entry_ignores_insert_failure (s : PmfsDirState) (ino : Nat)
    (name : List Nat) (hname : name.length ≠ 0)
    (hdup : s.tree.any (fun n => n.hash == BKDRHash name) = true) :
    pmfs_add_entry s ino name = .ok ⟨s.log ++ [⟨ino, name⟩], s.tree⟩ := by
  simp only [pmfs_add_entry, hname, if_false, pmfs_insert_dir_node_by_name,
    hdup, if_true]

/-- C3 witness. -/
theorem c3_add_entry_ignores_insert_failure_witness :
    pmfs_add_entry ⟨[⟨5, [97]⟩], [⟨0, 5, 97⟩]⟩ 6 [97]
      = .ok ⟨[⟨5, [97]⟩, ⟨6, [97]⟩], [⟨0, 5, 97⟩]⟩ :=
  c3_add_entry_ignores_insert_failure ⟨[⟨5, [97]⟩], [⟨0, 5, 97⟩]⟩ 6 [97]
    (by decide) (by decide)

/-! ## C10: links_count recorded in a DIR_LOG entry -/

/-- C10 counterexample: the special case guards only nlink == 0 with
link_change == -1; with i_nlink = 65535 and link_change = +1 the recorded
u16 links_count wraps to 0 instead of the claimed 65535 + 1. -/
theorem c10_links_count_wraps :
    pmfs_dir_entry_links_count 65535 1 = 0
    ∧ pmfs_dir_entry_links_count 65535 1 ≠ 65535 + 1 := by decide

/-- C10 (amended): when the directory's (u16-truncated) link count is 0 and
link_change is -1 the recorded links_count is 0 rather than wrapping to
65535; in every other case the recorded value is the link count plus
link_change modulo 2^16 (the field is 16 bits wide). -/
theorem c10_links_count_cases (i_nlink : Nat) (link_change : Int) :
    (i_nlink % 65536 = 0 ∧ link_change = -1 →
      pmfs_dir_entry_links_count i_nlink link_change = 0)
    ∧ (¬(i_nlink % 65536 = 0 ∧ link_change = -1) →
      (pmfs_dir_entry_links_count i_nlink link_change : Int)
          ≡ (i_nlink : Int) + link_change [ZMOD 65536]
      ∧ pmfs_dir_entry_links_count i_nlink link_change < 65536) := by
  constructor
  · intro h
    simp only [pmfs_dir_entry_links_count, h, if_true, and_self, if_pos]
  · intro h
    have hemod : (0 : Int) ≤ (((i_nlink % 65536 : Nat) : Int) + link_change).emod 65536 :=
      Int.emod_nonneg _ (by norm_num)
    have hlt : (((i_nlink % 65536 : Nat) : Int) + link_change).emod 65536 < 65536 :=
      Int.emod_lt_of_pos _ (by norm_num)
    constructor
    · simp only [pmfs_dir_entry_links_count, h, if_false, if_neg, Int.toNat_of_nonneg hemod]
      have h1 : (((i_nlink % 65536 : Nat) : Int) + link_change).emod 65536
          ≡ ((i_nlink % 65536 : Nat) : Int) + link_change [ZMOD 65536] :=
        Int.emod_emod_of_dvd _ dvd_rfl
      refine h1.trans (Int.ModEq.add_right link_change ?_)
      have : ((i_nlink % 65536 : Nat) : Int) = (i_nlink : Int) % 65536 := by
        push_cast
        ring
      rw [this]
      exact Int.emod_emod_of_dvd _ dvd_rfl
    · simp only [pmfs_dir_entry_links_count, h, if_false, if_neg]
      omega

/-- C10 witness: both branches at concrete inputs. -/
theorem c10_links_count_cases_witness :
    pmfs_dir_entry_links_count 0 (-1) = 0
    ∧ ((pmfs_dir_entry_links_count 65535 1 : Int) ≡ (65535 : Int) + 1 [ZMOD 65536]
        ∧ pmfs_dir_entry_links_count 65535 1 < 65536) :=
  ⟨(c10_links_count_cases 0 (-1)).1 (by decide),
   (c10_links_count_cases 65535 1).2 (by decide)⟩

/-! ## C9: directory log initialization -/

/-- C9: calling pmfs_append_dir_init_entries on an inode whose log_head is
nonzero fails with -EINVAL and writes nothing, leaving log_head,
log_tail and log_pages untouched; on an inode with log_head = 0 (and a
successful page allocation) it sets log_head to the fresh page, writes
the "." and ".." DIR_LOG entries there, and publishes the tail right
after them. -/
theorem c9_dir_init_entries (pi : DirInodeLog) (allocated : Bool)
    (new_block self_ino parent_ino : Nat) :
    (pi.log_head ≠ 0 →
      pmfs_append_dir_init_entries pi allocated new_block self_ino parent_ino
        = (.error (-EINVAL), pi, []))
    ∧ (pi.log_head = 0 → allocated = true →
      pmfs_append_dir_init_entries pi allocated new_block self_ino parent_ino
        = (.ok (),
           { log_head := new_block, log_tail := new_block + 64,
             log_pages := pi.log_pages, i_blocks := 1 },
           [(new_block, ⟨DIR_LOG_TYPE, self_ino, dotName, 32, 1⟩),
            (new_block + 32, ⟨DIR_LOG_TYPE, parent_ino, dotdotName, 32, 2⟩)])) := by
  constructor
  · intro h
    simp [pmfs_append_dir_init_entries, h]
  · intro h halloc
    simp only [pmfs_append_dir_init_entries, h, halloc]
    norm_num [PMFS_DIR_LOG_REC_LEN]

/-- C9 witness. -/
theorem c9_dir_init_entries_witness :
    pmfs_append_dir_init_entries ⟨0, 0, 0, 0⟩ true 4096 2 1
      = (.ok (),
         { log_head := 4096, log_tail := 4096 + 64, log_pages := 0,
           i_blocks := 1 },
         [(4096, ⟨DIR_LOG_TYPE, 2, dotName, 32, 1⟩),
          (4096 + 32, ⟨DIR_LOG_TYPE, 1, dotdotName, 32, 2⟩)]) :=
  (c9_dir_init_entries ⟨0, 0, 0, 0⟩ true 4096 2 1).2 rfl rfl

/-! ## C8: truncate-list add ordering -/

/-- C8: for an inode not already on the truncate list, pmfs_truncate_add
first writes the per-inode item with next = head.next and
size = truncate_size (event 0), flushes it (event 1) and persists it with
a mark and barrier (events 2 and 3), and only after that stores the
inode's number into the list head's next pointer (event 4): the head
store is the only head update in the trace and it follows the barrier. -/
theorem c8_truncate_add_order (head_next ino truncate_size : Nat)
    (in_transaction : Bool) :
    (pmfs_truncate_add false head_next ino truncate_size in_transaction)[0]?
        = some (.writeItem head_next truncate_size)
    ∧ (pmfs_truncate_add false head_next ino truncate_size in_transaction)[1]?
        = some .flushItem
    ∧ (pmfs_truncate_add false head_next ino truncate_size in_transaction)[2]?
        = some .persistMark
    ∧ (pmfs_truncate_add false head_next ino truncate_size in_transaction)[3]?
        = some .persistBarrier
    ∧ (pmfs_truncate_add false head_next ino truncate_size in_transaction)[4]?
        = some (.writeHeadNext ino)
    ∧ (∀ k e,
        (pmfs_truncate_add false head_next ino truncate_size in_transaction)[k]?
          = some (TruncateEv.writeHeadNext e) → k = 4 ∧ e = ino) := by
  refine ⟨?_, ?_, ?_, ?_, ?_, ?_⟩ <;>
    cases in_transaction <;>
    simp only [pmfs_truncate_add, Bool.false_eq_true, if_false, if_true,
      List.append_nil, List.cons_append, List.nil_append]
  all_goals try rfl
  all_goals
    intro k e h
    rcases k with _ | _ | _ | _ | _ | _ | _ | _ | k <;> simp_all

/-! ## C2: garbage collection recycles the tail page -/

/-- C2 (evaluation at the failing input): a one-page log whose page is full
of fully-invalidated FILE_WRITE entries, with log_tail at LAST_ENTRY of
that page. The loop-head comparison shifts both sides left by
PAGE_SHIFT, so the tail-page test never matches the page-aligned cursor:
garbage collection frees the very page containing log_tail and publishes
log_head = 0, contradicting the claim (and the source's own comment)
that the tail page is never recycled. -/
theorem c2_gc_frees_tail_page :
    ENTRY_LOC 8160 = LAST_ENTRY
    ∧ BLOCK_OFF 8160 = 4096
    ∧ curr_page_invalid (List.replicate 127 ⟨8193, 1⟩) = true
    ∧ (pmfs_inode_log_garbage_collection ⟨4096, 8160, 1⟩
        [⟨4096, List.replicate 127 ⟨8193, 1⟩⟩] 12288 1).freed = [4096]
    ∧ (pmfs_inode_log_garbage_collection ⟨4096, 8160, 1⟩
        [⟨4096, List.replicate 127 ⟨8193, 1⟩⟩] 12288 1).pi.log_head = 0 := by
  refine ⟨by decide, by decide, by decide, by decide, by decide⟩

/-! ## C7: batch allocation and garbage collection on append -/

/-- C7: appending to a non-empty log whose tail sits at the last entry
position of a page with next_page = 0 allocates a batch of exactly
min(log_pages, 256) pages, links them into a chain (each page of the
batch points to its successor and the last one keeps its freshly-zeroed
0), and runs garbage collection — whose final store publishes the new
chain (log_tail = the batch base) — before the entry is written. -/
theorem c7_append_allocates_batch_and_collects (pi : LogInode)
    (chain : List LogPage) (base : Nat) (h0 : pi.log_tail ≠ 0)
    (hlast : ENTRY_LOC pi.log_tail = LAST_ENTRY) :
    pmfs_append_inode_entry pi chain 0 base
      = { events := [.allocPages (min pi.log_pages 256) base, .gcRun,
                     .publish (pmfs_inode_log_garbage_collection pi chain base
                        (min pi.log_pages 256)).pi.log_head base,
                     .writeEntry base],
          pi := (pmfs_inode_log_garbage_collection pi chain base
                  (min pi.log_pages 256)).pi,
          curr_p := base }
    ∧ (pmfs_inode_log_garbage_collection pi chain base
        (min pi.log_pages 256)).pi.log_tail = base
    ∧ (pmfs_allocate_inode_log_pages_writes (min pi.log_pages 256) base).length
        = min pi.log_pages 256 - 1
    ∧ (∀ i, i + 1 < min pi.log_pages 256 →
        (pmfs_allocate_inode_log_pages_writes (min pi.log_pages 256) base)[i]?
          = some (base + PAGE_SIZE * i, base + PAGE_SIZE * (i + 1)))
    ∧ (∀ w ∈ pmfs_allocate_inode_log_pages_writes (min pi.log_pages 256) base,
        w.1 ≠ base + PAGE_SIZE * (min pi.log_pages 256 - 1)) := by
  have hmin : (if pi.log_pages ≥ 256 then 256 else pi.log_pages)
      = min pi.log_pages 256 := by
    by_cases hlp : pi.log_pages ≥ 256
    · rw [if_pos hlp, Nat.min_eq_right (by omega)]
    · rw [if_neg hlp, Nat.min_eq_left (by omega)]
  refine ⟨?_, ?_, ?_, ?_, ?_⟩
  · simp only [pmfs_append_inode_entry, beq_iff_eq, h0, if_false, hlast,
      beq_self_eq_true, Bool.and_self, if_true, hmin]
    simp [pmfs_inode_log_garbage_collection, h0]
  · simp [pmfs_inode_log_garbage_collection]
  · simp [pmfs_allocate_inode_log_pages_writes]
  · intro i hi
    simp only [pmfs_allocate_inode_log_pages_writes, List.getElem?_map,
      List.getElem?_range (by omega : i < min pi.log_pages 256 - 1)]
    rfl
  · intro w hw
    simp only [pmfs_allocate_inode_log_pages_writes, List.mem_map,
      List.mem_range] at hw
    obtain ⟨i, hi, rfl⟩ := hw
    intro hcontra
    have hc2 : base + PAGE_SIZE * i = base + PAGE_SIZE * (min pi.log_pages 256 - 1) :=
      hcontra
    have hps : PAGE_SIZE * i = PAGE_SIZE * (min pi.log_pages 256 - 1) :=
      Nat.add_left_cancel hc2
    have : i = min pi.log_pages 256 - 1 :=
      Nat.eq_of_mul_eq_mul_left (by norm_num [PAGE_SIZE]) hps
    omega

/-- C7 witness. -/
theorem c7_append_allocates_batch_and_collects_witness :
    pmfs_append_inode_entry ⟨4096, 8160, 3⟩ [⟨4096, []⟩] 0 12288
      = { events := [.allocPages (min 3 256) 12288, .gcRun,
                     .publish (pmfs_inode_log_garbage_collection ⟨4096, 8160, 3⟩
                        [⟨4096, []⟩] 12288 (min 3 256)).pi.log_head 12288,
                     .writeEntry 12288],
          pi := (pmfs_inode_log_garbage_collection ⟨4096, 8160, 3⟩
                  [⟨4096, []⟩] 12288 (min 3 256)).pi,
          curr_p := 12288 }
    ∧ (pmfs_inode_log_garbage_collection ⟨4096, 8160, 3⟩
        [⟨4096, []⟩] 12288 (min 3 256)).pi.log_tail = 12288
    ∧ (pmfs_allocate_inode_log_pages_writes (min 3 256) 12288).length
        = min 3 256 - 1
    ∧ (∀ i, i + 1 < min 3 256 →
        (pmfs_allocate_inode_log_pages_writes (min 3 256) 12288)[i]?
          = some (12288 + PAGE_SIZE * i, 12288 + PAGE_SIZE * (i + 1)))
    ∧ (∀ w ∈ pmfs_allocate_inode_log_pages_writes (min 3 256) 12288,
        w.1 ≠ 12288 + PAGE_SIZE * (min 3 256 - 1)) :=
  c7_append_allocates_batch_and_collects ⟨4096, 8160, 3⟩ [⟨4096, []⟩] 12288
    (by decide) (by decide)

/-! ## C4: height ceiling of the block map -/

theorem pmfs_height_loop_le_self (t : Nat) : ∀ h : Nat, h ≤ pmfs_height_loop t h := by
  induction t using Nat.strong_induction_on with
  | _ t ih =>
    intro h
    rw [pmfs_height_loop]
    by_cases ht : t = 0
    · simp [ht]
    · rw [if_neg ht]
      have hlt : t >>> META_BLK_SHIFT < t := by
        simp only [Nat.shiftRight_eq_div_pow, META_BLK_SHIFT]
        exact Nat.div_lt_self (Nat.pos_of_ne_zero ht) (by norm_num)
      exact le_trans (Nat.le_succ h) (ih _ hlt (h + 1))

theorem pmfs_height_loop_lb (k : Nat) : ∀ t h : Nat,
    2 ^ (META_BLK_SHIFT * k) ≤ t → h + k + 1 ≤ pmfs_height_loop t h := by
  induction k with
  | zero =>
    intro t h hle
    rw [pmfs_height_loop, if_neg (by simp at hle; omega)]
    simpa using pmfs_height_loop_le_self (t >>> META_BLK_SHIFT) (h + 1)
  | succ k ih =>
    intro t h hle
    have ht : t ≠ 0 := by
      have : 0 < 2 ^ (META_BLK_SHIFT * (k + 1)) := Nat.pos_pow_of_pos _ (by norm_num)
      omega
    rw [pmfs_height_loop, if_neg ht]
    have hstep : 2 ^ (META_BLK_SHIFT * k) ≤ t >>> META_BLK_SHIFT := by
      simp only [Nat.shiftRight_eq_div_pow]
      rw [Nat.le_div_iff_mul_le (Nat.pos_pow_of_pos _ (by norm_num))]
      calc 2 ^ (META_BLK_SHIFT * k) * 2 ^ META_BLK_SHIFT
          = 2 ^ (META_BLK_SHIFT * (k + 1)) := by rw [← pow_add]; ring_nf
        _ ≤ t := hle
    have := ih (t >>> META_BLK_SHIFT) (h + 1) hstep
    omega

theorem pmfs_height_loop_ub (k : Nat) : ∀ t h : Nat,
    t < 2 ^ (META_BLK_SHIFT * k) → pmfs_height_loop t h ≤ h + k := by
  induction k with
  | zero =>
    intro t h hlt
    have : t = 0 := by simp at hlt; omega
    rw [pmfs_height_loop, if_pos this]
    omega
  | succ k ih =>
    intro t h hlt
    rw [pmfs_height_loop]
    by_cases ht : t = 0
    · rw [if_pos ht]; omega
    · rw [if_neg ht]
      have hstep : t >>> META_BLK_SHIFT < 2 ^ (META_BLK_SHIFT * k) := by
        simp only [Nat.shiftRight_eq_div_pow]
        rw [Nat.div_lt_iff_lt_mul (Nat.pos_pow_of_pos _ (by norm_num))]
        calc t < 2 ^ (META_BLK_SHIFT * (k + 1)) := hlt
          _ = 2 ^ (META_BLK_SHIFT * k) * 2 ^ META_BLK_SHIFT := by
              rw [← pow_add]; ring_nf
      have := ih (t >>> META_BLK_SHIFT) (h + 1) hstep
      omega

theorem grow_check_enospc (pi : BtreeInode) (last_blocknr : Nat)
    (hh : pi.height ≤ 3) (hbig : 2 ^ 27 ≤ last_blocknr) :
    pmfs_grow_height_check pi last_blocknr = .error (-ENOSPC) := by
  have hshift : pi.height * META_BLK_SHIFT ≤ 27 := by
    simp only [META_BLK_SHIFT]; omega
  have hmax : (1 : Nat) <<< (pi.height * META_BLK_SHIFT) ≤ 2 ^ 27 := by
    rw [Nat.one_shiftLeft]
    exact Nat.pow_le_pow_right (by norm_num) hshift
  have hgt : last_blocknr > 1 <<< (pi.height * META_BLK_SHIFT) - 1 := by
    have : (0 : Nat) < 1 <<< (pi.height * META_BLK_SHIFT) := by
      rw [Nat.one_shiftLeft]; exact Nat.pos_pow_of_pos _ (by norm_num)
    omega
  have hq : 2 ^ (META_BLK_SHIFT * (3 - pi.height))
      ≤ last_blocknr >>> (pi.height * META_BLK_SHIFT) := by
    simp only [Nat.shiftRight_eq_div_pow]
    rw [Nat.le_div_iff_mul_le (Nat.pos_pow_of_pos _ (by norm_num))]
    calc 2 ^ (META_BLK_SHIFT * (3 - pi.height)) * 2 ^ (pi.height * META_BLK_SHIFT)
        = 2 ^ (META_BLK_SHIFT * (3 - pi.height) + pi.height * META_BLK_SHIFT) := by
          rw [← pow_add]
      _ = 2 ^ 27 := by
          congr 1
          simp only [META_BLK_SHIFT]
          omega
      _ ≤ last_blocknr := hbig
  have hloop : 4 ≤ pmfs_height_loop
      (last_blocknr >>> (pi.height * META_BLK_SHIFT)) pi.height := by
    have := pmfs_height_loop_lb (3 - pi.height)
      (last_blocknr >>> (pi.height * META_BLK_SHIFT)) pi.height hq
    omega
  simp only [pmfs_grow_height_check, if_pos hgt, if_pos (by omega : pmfs_height_loop
      (last_blocknr >>> (pi.height * META_BLK_SHIFT)) pi.height > 3)]

theorem grow_check_ok (pi : BtreeInode) (last_blocknr : Nat)
    (hh : pi.height ≤ 3) (hsmall : last_blocknr < 2 ^ 27) :
    ∃ h2, pmfs_grow_height_check pi last_blocknr = .ok h2 := by
  by_cases hgt : last_blocknr > 1 <<< (pi.height * META_BLK_SHIFT) - 1
  · have hq : last_blocknr >>> (pi.height * META_BLK_SHIFT)
        < 2 ^ (META_BLK_SHIFT * (3 - pi.height)) := by
      simp only [Nat.shiftRight_eq_div_pow]
      rw [Nat.div_lt_iff_lt_mul (Nat.pos_pow_of_pos _ (by norm_num))]
      calc last_blocknr < 2 ^ 27 := hsmall
        _ = 2 ^ (META_BLK_SHIFT * (3 - pi.height)) * 2 ^ (pi.height * META_BLK_SHIFT) := by
            rw [← pow_add]
            congr 1
            simp only [META_BLK_SHIFT]
            omega
    have hloop : pmfs_height_loop
        (last_blocknr >>> (pi.height * META_BLK_SHIFT)) pi.height ≤ 3 := by
      have := pmfs_height_loop_ub (3 - pi.height)
        (last_blocknr >>> (pi.height * META_BLK_SHIFT)) pi.height hq
      omega
    refine ⟨pmfs_height_loop (last_blocknr >>> (pi.height * META_BLK_SHIFT)) pi.height, ?_⟩
    simp only [pmfs_grow_height_check, if_pos hgt, if_neg (by omega : ¬pmfs_height_loop
        (last_blocknr >>> (pi.height * META_BLK_SHIFT)) pi.height > 3)]
  · refine ⟨pi.height, ?_⟩
    simp only [pmfs_grow_height_check, if_neg hgt]

/-- C4: for an inode whose height is within the legal range, a block
allocation or assignment whose last requested block index is at least
fanout^3 (fanout = 1 << META_BLK_SHIFT) fails with -ENOSPC before
touching the inode, leaving root and height unchanged; conversely, below
fanout^3 the height check passes (no ENOSPC arises from it). -/
theorem c4_height_ceiling (pi : BtreeInode) (file_blocknr num blk_shift : Nat)
    (rest rest2 : BtreeInode → Nat → Nat → Nat → Except Int Unit × BtreeInode)
    (hh : pi.height ≤ 3)
    (hbig : (1 <<< META_BLK_SHIFT) ^ 3 ≤ (file_blocknr + num - 1) >>> blk_shift) :
    pmfs_alloc_blocks_top pi file_blocknr num blk_shift rest
        = (.error (-ENOSPC), pi)
    ∧ pmfs_assign_blocks_top pi file_blocknr num blk_shift rest2
        = (.error (-ENOSPC), pi)
    ∧ (∀ last2 : Nat, last2 < (1 <<< META_BLK_SHIFT) ^ 3 →
        ∃ h2, pmfs_grow_height_check pi last2 = .ok h2) := by
  have hfan : ((1 : Nat) <<< META_BLK_SHIFT) ^ 3 = 2 ^ 27 := by
    rw [Nat.one_shiftLeft]
    norm_num [META_BLK_SHIFT]
  rw [hfan] at hbig
  have hchk := grow_check_enospc pi ((file_blocknr + num - 1) >>> blk_shift) hh hbig
  refine ⟨?_, ?_, ?_⟩
  · simp only [pmfs_alloc_blocks_top, hchk]
  · simp only [pmfs_assign_blocks_top, hchk]
  · intro last2 h2
    rw [hfan] at h2
    exact grow_check_ok pi last2 hh h2

/-- C4 witness. -/
theorem c4_height_ceiling_witness :
    pmfs_alloc_blocks_top ⟨7, 0⟩ 134217728 1 0 (fun pi _ _ _ => (.ok (), pi))
        = (.error (-ENOSPC), ⟨7, 0⟩)
    ∧ pmfs_assign_blocks_top ⟨7, 0⟩ 134217728 1 0 (fun pi _ _ _ => (.ok (), pi))
        = (.error (-ENOSPC), ⟨7, 0⟩)
    ∧ (∀ last2 : Nat, last2 < (1 <<< META_BLK_SHIFT) ^ 3 →
        ∃ h2, pmfs_grow_height_check ⟨7, 0⟩ last2 = .ok h2) :=
  c4_height_ceiling ⟨7, 0⟩ 134217728 1 0 _ _ (by norm_num)
    (by norm_num [META_BLK_SHIFT, Nat.one_shiftLeft, Nat.shiftRight_eq_div_pow])

/-! ## C6: inode allocation by linear scan with on-demand table growth -/

theorem scanAux_spec (l : List PmfsInodeSlot) : ∀ i j : Nat, scanAux l i = some j →
    i ≤ j ∧ (∃ s, l[j - i]? = some s ∧ slot_free s = true)
    ∧ (∀ k s, k < j - i → l[k]? = some s → slot_free s = false) := by
  induction l with
  | nil => intro i j h; simp [scanAux] at h
  | cons a rest ih =>
    intro i j h
    simp only [scanAux] at h
    by_cases ha : slot_free a
    · rw [if_pos ha] at h
      obtain rfl : i = j := by injection h
      refine ⟨le_refl i, ⟨a, by simp, ha⟩, ?_⟩
      intro k s hk
      omega
    · rw [if_neg ha] at h
      obtain ⟨hij, ⟨s, hs, hfree⟩, hbefore⟩ := ih (i + 1) j h
      refine ⟨by omega, ⟨s, ?_, hfree⟩, ?_⟩
      · have : j - i = (j - (i + 1)) + 1 := by omega
        rw [this]
        simpa using hs
      · intro k s2 hk hks
        match k with
        | 0 =>
          simp only [List.getElem?_cons_zero, Option.some_inj] at hks
          rw [← hks]
          simpa using ha
        | k + 1 =>
          simp only [List.getElem?_cons_succ] at hks
          exact hbefore k s2 (by omega) hks

theorem scanAux_replicate_zero (n : Nat) (i : Nat) (hn : 0 < n) :
    scanAux (List.replicate n ⟨0, 0, 0⟩) i = some i := by
  match n, hn with
  | n + 1, _ =>
    simp [List.replicate, scanAux, slot_free]

/-- C6: with the hint inside the table and at least one inode per block,
pmfs_new_inode (a) allocates exactly the slot found by the linear scan
from the free-inode hint — the first index whose slot has
links_count == 0 and (mode == 0 or dtime != 0) — without extending the
table, and (b) when and only when the scan reaches s_inodes_count with
no hit, the table is extended by exactly one block of zeroed slots via
pmfs_increase_inode_table_size (updating s_inodes_count and
s_free_inodes_count) and the retried scan allocates the first new slot. -/
theorem c6_new_inode_scan_and_growth (t : InodeTable) (ipb fuel : Nat)
    (allocOk : Bool) (hhint : t.free_inode_hint ≤ t.slots.length)
    (hipb : 0 < ipb) (hfuel : 2 ≤ fuel) :
    (∀ j, scan_free_inode t.slots t.free_inode_hint = some j →
      pmfs_new_inode_scan t ipb allocOk fuel = .ok (j, t, 0)
      ∧ t.free_inode_hint ≤ j ∧ j < t.slots.length
      ∧ (∃ s, t.slots[j]? = some s ∧ slot_free s = true)
      ∧ (∀ k s, t.free_inode_hint ≤ k → k < j → t.slots[k]? = some s →
          slot_free s = false))
    ∧ (scan_free_inode t.slots t.free_inode_hint = none → allocOk = true →
      pmfs_new_inode_scan t ipb allocOk fuel
        = .ok (t.slots.length, pmfs_increase_inode_table_size t ipb, 1)) := by
  constructor
  · intro j hscan
    obtain ⟨fuel2, rfl⟩ : ∃ f2, fuel = f2 + 1 := ⟨fuel - 1, by omega⟩
    obtain ⟨hij, ⟨s, hs, hfree⟩, hbefore⟩ :=
      scanAux_spec _ _ _ hscan
    have hgd : (t.slots.drop t.free_inode_hint)[j - t.free_inode_hint]?
        = t.slots[j]? := by
      rw [List.getElem?_drop]
      congr 1
      omega
    refine ⟨?_, hij, ?_, ⟨s, by rw [← hgd]; exact hs, hfree⟩, ?_⟩
    · simp only [pmfs_new_inode_scan, pmfs_new_inode_loop, hscan]
    · have : j - t.free_inode_hint < (t.slots.drop t.free_inode_hint).length :=
        List.getElem?_eq_some.mp hs |>.1
      simp only [List.length_drop] at this
      omega
    · intro k s2 hk1 hk2 hks
      have hgd2 : (t.slots.drop t.free_inode_hint)[k - t.free_inode_hint]?
          = t.slots[k]? := by
        rw [List.getElem?_drop]
        congr 1
        omega
      exact hbefore (k - t.free_inode_hint) s2 (by omega) (by rw [hgd2]; exact hks)
  · intro hscan halloc
    obtain ⟨fuel2, rfl⟩ : ∃ f2, fuel = f2 + 2 := ⟨fuel - 2, by omega⟩
    have hmax : max t.free_inode_hint t.slots.length = t.slots.length := by omega
    have hscan2 : scan_free_inode
        (pmfs_increase_inode_table_size t ipb).slots t.slots.length
        = some t.slots.length := by
      simp only [pmfs_increase_inode_table_size, scan_free_inode,
        List.drop_left]
      exact scanAux_replicate_zero ipb t.slots.length hipb
    simp only [pmfs_new_inode_scan, pmfs_new_inode_loop, hscan, halloc,
      if_true, hmax, hscan2]

/-- C6 witness: case (a) at a concrete table whose slot 0 is live and slot 1
free. -/
theorem c6_new_inode_scan_and_growth_witness :
    pmfs_new_inode_scan ⟨[⟨1, 33188, 0⟩, ⟨0, 0, 0⟩], 5, 0⟩ 2 true 2
        = .ok (1, ⟨[⟨1, 33188, 0⟩, ⟨0, 0, 0⟩], 5, 0⟩, 0)
    ∧ (0 : Nat) ≤ 1 ∧ 1 < ([⟨1, 33188, 0⟩, ⟨0, 0, 0⟩] : List PmfsInodeSlot).length
    ∧ (∃ s, ([⟨1, 33188, 0⟩, ⟨0, 0, 0⟩] : List PmfsInodeSlot)[1]? = some s
        ∧ slot_free s = true)
    ∧ (∀ k s, 0 ≤ k → k < 1 →
        ([⟨1, 33188, 0⟩, ⟨0, 0, 0⟩] : List PmfsInodeSlot)[k]? = some s →
        slot_free s = false) :=
  (c6_new_inode_scan_and_growth ⟨[⟨1, 33188, 0⟩, ⟨0, 0, 0⟩], 5, 0⟩ 2 2 true
    (by decide) (by decide) (by decide)).1 1 rfl

/-! ## C1: replaying the directory log vs the online index -/

theorem rebuildOkB_cons (t : DirTree) (pos : Nat) (e : PmfsDirLogentry)
    (rest : List PmfsDirLogentry) :
    rebuildOkB t pos (e :: rest)
      = if e.ino > 0 then
          match pmfs_replay_add_entry t e pos with
          | .ok t2 => rebuildOkB t2 (pos + 1) rest
          | .error _ => false
        else rebuildOkB (pmfs_replay_remove_entry t e) (pos + 1) rest := rfl

theorem rebuildGo_cons (t : DirTree) (pos : Nat) (e : PmfsDirLogentry)
    (rest : List PmfsDirLogentry) :
    rebuildGo t pos (e :: rest)
      = if e.ino > 0 then
          match pmfs_replay_add_entry t e pos with
          | .ok t2 => rebuildGo t2 (pos + 1) rest
          | .error _ => t
        else rebuildGo (pmfs_replay_remove_entry t e) (pos + 1) rest := rfl

theorem rebuildGo_append (l1 l2 : List PmfsDirLogentry) : ∀ (t : DirTree) (pos : Nat),
    rebuildOkB t pos l1 = true →
    rebuildGo t pos (l1 ++ l2)
      = rebuildGo (rebuildGo t pos l1) (pos + l1.length) l2 := by
  induction l1 with
  | nil => intro t pos _; simp [rebuildGo]
  | cons e rest ih =>
    intro t pos hok
    simp only [List.cons_append, rebuildGo, rebuildOkB] at hok ⊢
    by_cases hino : e.ino > 0
    · simp only [hino, if_true] at hok ⊢
      cases hins : pmfs_replay_add_entry t e pos with
      | ok t2 =>
        simp only [hins] at hok ⊢
        have harith : pos + (rest.length + 1) = (pos + 1) + rest.length := by omega
        simp only [List.length_cons, harith]
        exact ih t2 (pos + 1) hok
      | error err =>
        rw [hins] at hok
        simp at hok
    · simp only [hino, if_false] at hok ⊢
      have harith : pos + (rest.length + 1) = (pos + 1) + rest.length := by omega
      simp only [List.length_cons, harith]
      exact ih _ (pos + 1) hok

theorem rebuildOkB_append (l1 l2 : List PmfsDirLogentry) : ∀ (t : DirTree) (pos : Nat),
    rebuildOkB t pos l1 = true →
    rebuildOkB (rebuildGo t pos l1) (pos + l1.length) l2 = true →
    rebuildOkB t pos (l1 ++ l2) = true := by
  induction l1 with
  | nil => intro t pos _ h2; simpa [rebuildGo] using h2
  | cons e rest ih =>
    intro t pos hok h2
    simp only [List.cons_append, rebuildOkB, rebuildGo, List.length_cons] at hok h2 ⊢
    by_cases hino : e.ino > 0
    · simp only [hino, if_true] at hok h2 ⊢
      cases hins : pmfs_replay_add_entry t e pos with
      | ok t2 =>
        simp only [hins] at hok h2 ⊢
        have harith : pos + (rest.length + 1) = (pos + 1) + rest.length := by omega
        rw [harith] at h2
        exact ih t2 (pos + 1) hok h2
      | error err =>
        rw [hins] at hok
        simp at hok
    · simp only [hino, if_false] at hok h2 ⊢
      have harith : pos + (rest.length + 1) = (pos + 1) + rest.length := by omega
      rw [harith] at h2
      exact ih _ (pos + 1) hok h2

theorem initDirNodes_hashes (self parent : Nat) :
    ∀ n ∈ initDirNodes self parent,
      n.hash = BKDRHash dotName ∨ n.hash = BKDRHash dotdotName := by
  intro n hn
  simp only [initDirNodes, List.mem_cons, List.mem_singleton] at hn
  rcases hn with rfl | rfl | h
  · left; rfl
  · right; rfl
  · simp at h

theorem dir_step (self parent : Nat) (s : PmfsDirState) (op : DirOp)
    (h1 : rebuildOkB [] 0 s.log = true)
    (h2 : rebuildGo [] 0 s.log = initDirNodes self parent ++ s.tree)
    (hok : opOk s op = true) :
    rebuildOkB [] 0 (applyOp s op).log = true
    ∧ rebuildGo [] 0 (applyOp s op).log
        = initDirNodes self parent ++ (applyOp s op).tree := by
  cases op with
  | add ino name =>
    simp only [opOk, Bool.and_eq_true, Bool.not_eq_true', decide_eq_true_eq,
      beq_eq_false_iff_ne, ne_eq] at hok
    obtain ⟨⟨⟨⟨hino, hname⟩, hfresh⟩, hne1⟩, hne2⟩ := hok
    have hname2 : ¬(name.length = 0) := by
      simpa using hname
    have happly : applyOp s (.add ino name)
        = ⟨s.log ++ [⟨ino, name⟩],
           s.tree ++ [⟨s.log.length, ino, BKDRHash name⟩]⟩ := by
      simp [applyOp, pmfs_add_entry, hname2, pmfs_insert_dir_node_by_name, hfresh]
    have hanyinit : (initDirNodes self parent).any
        (fun n => n.hash == BKDRHash name) = false := by
      simp only [List.any_eq_false]
      intro n hn
      rcases initDirNodes_hashes self parent n hn with h | h <;>
        simp [h, beq_eq_false_iff_ne] <;> omega
    have hanyall : ((initDirNodes self parent) ++ s.tree).any
        (fun n => n.hash == BKDRHash name) = false := by
      rw [List.any_append, hanyinit, hfresh]
      rfl
    have hsingle_go : rebuildGo (initDirNodes self parent ++ s.tree)
        (0 + s.log.length) [⟨ino, name⟩]
        = initDirNodes self parent
            ++ (s.tree ++ [⟨s.log.length, ino, BKDRHash name⟩]) := by
      simp [rebuildGo, pmfs_replay_add_entry, hname2, hino,
        pmfs_insert_dir_node_by_name, hanyall]
    have hsingle_ok : rebuildOkB (initDirNodes self parent ++ s.tree)
        (0 + s.log.length) [⟨ino, name⟩] = true := by
      simp [rebuildOkB, pmfs_replay_add_entry, hname2, hino,
        pmfs_insert_dir_node_by_name, hanyall]
    rw [happly]
    constructor
    · exact rebuildOkB_append s.log [⟨ino, name⟩] [] 0 h1 (by rw [h2]; exact hsingle_ok)
    · rw [rebuildGo_append s.log [⟨ino, name⟩] [] 0 h1, h2]
      exact hsingle_go
  | remove name =>
    simp only [opOk, Bool.and_eq_true, Bool.not_eq_true', decide_eq_true_eq,
      beq_eq_false_iff_ne, ne_eq] at hok
    obtain ⟨⟨hname, hne1⟩, hne2⟩ := hok
    have hname2 : ¬(name.length = 0) := by
      simpa using hname
    have happly : applyOp s (.remove name)
        = ⟨s.log ++ [⟨0, name⟩],
           s.tree.eraseP (fun n => n.hash == BKDRHash name)⟩ := by
      simp [applyOp, pmfs_remove_entry, hname2, pmfs_remove_dir_node_by_name]
    have herase : (initDirNodes self parent ++ s.tree).eraseP
        (fun n => n.hash == BKDRHash name)
        = initDirNodes self parent
            ++ s.tree.eraseP (fun n => n.hash == BKDRHash name) := by
      refine eraseP_append_false _ _ _ ?_
      intro n hn
      rcases initDirNodes_hashes self parent n hn with h | h <;>
        simp [h, beq_eq_false_iff_ne] <;> omega
    have hsingle_go : rebuildGo (initDirNodes self parent ++ s.tree)
        (0 + s.log.length) [⟨0, name⟩]
        = initDirNodes self parent
            ++ s.tree.eraseP (fun n => n.hash == BKDRHash name) := by
      simp only [rebuildGo, gt_iff_lt, Nat.lt_irrefl, if_false,
        pmfs_replay_remove_entry, pmfs_remove_dir_node_by_name]
      exact herase
    have hsingle_ok : rebuildOkB (initDirNodes self parent ++ s.tree)
        (0 + s.log.length) [⟨0, name⟩] = true := by
      simp [rebuildOkB]
    rw [happly]
    constructor
    · exact rebuildOkB_append s.log [⟨0, name⟩] [] 0 h1 (by rw [h2]; exact hsingle_ok)
    · rw [rebuildGo_append s.log [⟨0, name⟩] [] 0 h1, h2]
      exact hsingle_go

theorem runOps_inv (self parent : Nat) (ops : List DirOp) : ∀ s : PmfsDirState,
    rebuildOkB [] 0 s.log = true →
    rebuildGo [] 0 s.log = initDirNodes self parent ++ s.tree →
    opsOkB s ops = true →
    rebuildOkB [] 0 (runOps s ops).log = true
    ∧ rebuildGo [] 0 (runOps s ops).log
        = initDirNodes self parent ++ (runOps s ops).tree := by
  induction ops with
  | nil => intro s h1 h2 _; exact ⟨h1, h2⟩
  | cons op rest ih =>
    intro s h1 h2 hok
    simp only [opsOkB, Bool.and_eq_true] at hok
    obtain ⟨hop, hrest⟩ := hok
    have hstep := dir_step self parent s op h1 h2 hop
    simp only [runOps]
    exact ih (applyOp s op) hstep.1 hstep.2 hrest

theorem initDirState_inv (self parent : Nat) (hs : 0 < self) (hp : 0 < parent) :
    rebuildOkB [] 0 (initDirState self parent).log = true
    ∧ rebuildGo [] 0 (initDirState self parent).log
        = initDirNodes self parent ++ (initDirState self parent).tree := by
  have hbeq : (BKDRHash [46] == BKDRHash [46, 46]) = false := by decide
  have hadd1 : pmfs_replay_add_entry [] ⟨self, [46]⟩ 0
      = .ok [⟨0, self, BKDRHash [46]⟩] := rfl
  have hadd2 : pmfs_replay_add_entry [⟨0, self, BKDRHash [46]⟩] ⟨parent, [46, 46]⟩ 1
      = .ok [⟨0, self, BKDRHash [46]⟩, ⟨1, parent, BKDRHash [46, 46]⟩] := by
    simp [pmfs_replay_add_entry, pmfs_insert_dir_node_by_name, hbeq]
  constructor
  · show rebuildOkB [] 0 [⟨self, [46]⟩, ⟨parent, [46, 46]⟩] = true
    rw [rebuildOkB_cons]
    simp only [hs, if_true, hadd1]
    rw [rebuildOkB_cons]
    simp only [hp, if_true, hadd2]
    rfl
  · show rebuildGo [] 0 [⟨self, [46]⟩, ⟨parent, [46, 46]⟩]
        = initDirNodes self parent ++ []
    rw [rebuildGo_cons]
    simp only [hs, if_true, hadd1]
    rw [rebuildGo_cons]
    simp only [hp, if_true, hadd2]
    simp only [rebuildGo, initDirNodes, List.append_nil, dotName, dotdotName]

/-- C1 counterexample: on a freshly initialized directory with the empty
(trivially all-successful) operation sequence, replaying the log yields
the two init entries "." and ".." in the index, while the online index
is empty — the mappings differ. -/
theorem c1_replay_differs_on_fresh_dir :
    opsOkB (initDirState 2 1) [] = true
    ∧ pmfs_rebuild_dir_inode_tree (runOps (initDirState 2 1) []).log
        ≠ (runOps (initDirState 2 1) []).tree := by
  exact ⟨rfl, by decide⟩

/-- C1 (amended): for every freshly initialized directory (log holding the
"." and ".." init entries, online index empty) and every sequence of
successful pmfs_add_entry / pmfs_remove_entry operations avoiding the
reserved init names, replaying the log with pmfs_rebuild_dir_inode_tree
yields exactly the online index plus the two init-entry mappings, which
the online index never contains. -/
theorem c1_rebuild_equals_online_plus_init (self parent : Nat)
    (ops : List DirOp) (hs : 0 < self) (hp : 0 < parent)
    (hok : opsOkB (initDirState self parent) ops = true) :
    pmfs_rebuild_dir_inode_tree (runOps (initDirState self parent) ops).log
      = initDirNodes self parent
          ++ (runOps (initDirState self parent) ops).tree := by
  have hbase := initDirState_inv self parent hs hp
  exact (runOps_inv self parent ops _ hbase.1 hbase.2 hok).2

/-- C1 witness: create then unlink one name. -/
theorem c1_rebuild_equals_online_plus_init_witness :
    pmfs_rebuild_dir_inode_tree
        (runOps (initDirState 2 1) [.add 3 [97], .remove [97]]).log
      = initDirNodes 2 1
          ++ (runOps (initDirState 2 1) [.add 3 [97], .remove [97]]).tree :=
  c1_rebuild_equals_online_plus_init 2 1 [.add 3 [97], .remove [97]]
    (by decide) (by decide) (by decide)

/-- C8 witness. -/
theorem c8_truncate_add_order_witness :
    (pmfs_truncate_add false 7 9 100 false)[0]? = some (.writeItem 7 100)
    ∧ (pmfs_truncate_add false 7 9 100 false)[1]? = some .flushItem
    ∧ (pmfs_truncate_add false 7 9 100 false)[2]? = some .persistMark
    ∧ (pmfs_truncate_add false 7 9 100 false)[3]? = some .persistBarrier
    ∧ (pmfs_truncate_add false 7 9 100 false)[4]? = some (.writeHeadNext 9)
    ∧ (∀ k e, (pmfs_truncate_add false 7 9 100 false)[k]?
        = some (TruncateEv.writeHeadNext e) → k = 4 ∧ e = 9) :=
  c8_truncate_add_order 7 9 100 false
